import Mathlib

/-!
Verification of the Clearpath Nexus (ClearPath-RAG) repository.

The frontend (app/frontend/src) is embedded directly from the TypeScript
source: the API data model (api/models.ts), the fetch wrapper (api/api.ts),
the chat component and citation rendering (the Chat component file), and the
observability panel (components/Chat/DebugPanel.tsx).

The backend retrieval pipeline (rank fusion, tiering, deduplication,
reranking, dynamic thresholding, routing) is documented in the repository
but its Python source is not part of this tree; those components are
modelled from the specification text, as flagged on each definition.

Rational numbers stand for the floating point scores of the source; strings
are modelled by their character lists where character level computation is
needed.
-/

namespace ClearPath

/-! ## Frontend data model, from api/models.ts -/

/-- Embeds interface MetadataTokens of api/models.ts. -/
structure MetadataTokens where
  input : Int
  output : Int
deriving DecidableEq

/-- Embeds interface MetadataResponse of api/models.ts.  The source field
named section is rendered as sect since section is a Lean keyword. -/
structure MetadataResponse where
  model_used : String
  classification : String
  tokens : MetadataTokens
  latency_ms : ℚ
  retrieval_latency_ms : ℚ
  num_chunks_retrieved : Int
  avg_similarity_score : ℚ
  routing_score : ℚ
  evaluator_flags : List String
deriving DecidableEq

/-- Embeds interface SourceResponse of api/models.ts; sect is the field
named section in the source. -/
structure SourceResponse where
  document : String
  sect : Option String
  page : Option Int
  relevance_score : Option ℚ
deriving DecidableEq

/-- Embeds interface QueryResponse of api/models.ts. -/
structure QueryResponse where
  answer : String
  metadata : MetadataResponse
  sources : List SourceResponse
  conversation_id : String
deriving DecidableEq

/-- The role strings user and bot shared by ChatMessage (api/models.ts) and
the Message interface of the Chat component. -/
inductive ChatRole where
  | user : ChatRole
  | bot : ChatRole
deriving DecidableEq

/-- Embeds interface ChatMessage of api/models.ts. -/
structure ChatMessage where
  role : ChatRole
  text : String
deriving DecidableEq

/-- Embeds interface QueryRequest of api/models.ts. -/
structure QueryRequest where
  question : String
  conversation_id : Option String
  history : List ChatMessage
deriving DecidableEq

/-- Embeds the Message interface local to the Chat component: the messages
displayed in the chat transcript. -/
structure Message where
  id : String
  role : ChatRole
  text : String
  sources : Option (List SourceResponse)
deriving DecidableEq

/-! ## Chat.handleSend history window (Chat component) -/

/-- The map from a displayed Message to the API ChatMessage shape, embedded
from the map callback inside handleSend. -/
def toChatMessage (m : Message) : ChatMessage :=
  { role := m.role, text := m.text }

/-- JavaScript slice with a negative start index: slice applied to minus n
keeps the last n elements (all of them when fewer than n exist). -/
def sliceLast (n : Nat) (l : List α) : List α :=
  l.drop (l.length - n)

/-- Embeds the history construction of handleSend: the last six displayed
messages, mapped to the ChatMessage shape.  The messages value read here is
the state before the new user message is appended. -/
def buildChatHistory (messages : List Message) : List ChatMessage :=
  (sliceLast 6 messages).map toChatMessage

/-- Embeds the request built by handleSend: question plus the bounded
history window; handleSend sends no conversation identifier. -/
def handleSendRequest (messages : List Message) (userText : String) : QueryRequest :=
  { question := userText, conversation_id := none, history := buildChatHistory messages }

/-! ## DebugPanel (components/Chat/DebugPanel.tsx) -/

/-- Embeds the Integrity badge of DebugPanel: hasFlags is the check that
evaluator_flags has positive length, and selects the Low Confidence badge,
with Grounded otherwise. -/
def integrityBadge (metadata : MetadataResponse) : String :=
  if metadata.evaluator_flags.length > 0 then "Low Confidence" else "Grounded"

/-- Embeds the success branch of handleSend: the bot message carrying the
answer (and the sources) is appended to the transcript; no field of the
metadata is consulted. -/
def appendBotAnswer (messages : List Message) (botId : String) (response : QueryResponse) :
    List Message :=
  messages ++ [{ id := botId, role := ChatRole.bot, text := response.answer,
                 sources := some response.sources }]

/-! ## askApi (api/api.ts) and the handleSend outcome -/

/-- The completed HTTP response askApi inspects: the ok flag, the numeric
status, and the parsed JSON body. -/
structure HttpResponse where
  ok : Bool
  status : Nat
  body : QueryResponse

/-- Embeds askApi of api/api.ts: when the response is not ok it throws an
Error whose message names the HTTP status, otherwise it returns the parsed
JSON body. -/
def askApi (response : HttpResponse) : Except String QueryResponse :=
  if response.ok = false then
    Except.error ("API error: " ++ toString response.status)
  else
    Except.ok response.body

/-- The fixed failure text appended by the catch branch of handleSend. -/
def fetchFailureText : String := "An error occurred while fetching the response."

/-- Embeds the transcript update of handleSend around the askApi call: the
user message is appended, then either the bot answer (try branch) or the
fixed failure message (catch branch). -/
def handleSendOutcome (messages : List Message) (userText : String)
    (userId botId : String) (response : HttpResponse) : List Message :=
  let withUser := messages ++ [{ id := userId, role := ChatRole.user, text := userText,
                                 sources := none }]
  match askApi response with
  | Except.ok r =>
      withUser ++ [{ id := botId, role := ChatRole.bot, text := r.answer,
                     sources := some r.sources }]
  | Except.error _ =>
      withUser ++ [{ id := botId, role := ChatRole.bot, text := fetchFailureText,
                     sources := none }]

/-! ## Theorems for the chat frontend claims -/

/-- C5: the history field sent by the chat frontend is a bounded prior-turn
window: at most the six most recent previously displayed messages, as a
suffix (hence in original order) of the displayed transcript, and when the
question text occurs in no prior message the history never carries it. -/
theorem handleSend_history_bounded (messages : List Message) (userText : String)
    (hfresh : ∀ m ∈ messages, m.text ≠ userText) :
    (handleSendRequest messages userText).history.length ≤ 6 ∧
    (handleSendRequest messages userText).history <:+ messages.map toChatMessage ∧
    ∀ c ∈ (handleSendRequest messages userText).history, c.text ≠ userText := by
  refine ⟨?_, ?_, ?_⟩
  · simp only [handleSendRequest, buildChatHistory, sliceLast, List.length_map,
      List.length_drop]
    omega
  · simp only [handleSendRequest, buildChatHistory, sliceLast]
    rw [List.map_drop]
    have hlen : messages.length = (messages.map toChatMessage).length := by
      simp
    rw [hlen]
    exact List.drop_suffix _ _
  · intro c hc
    simp only [handleSendRequest, buildChatHistory, sliceLast, List.mem_map] at hc
    obtain ⟨m, hm, hmc⟩ := hc
    have hmem : m ∈ messages := List.mem_of_mem_drop hm
    have := hfresh m hmem
    simpa [← hmc, toChatMessage] using this

/-- Witness for C5 at a concrete transcript. -/
theorem handleSend_history_bounded_witness :
    (handleSendRequest [{ id := "1", role := ChatRole.user, text := "hello",
                          sources := none }] "next question").history.length ≤ 6 ∧
    (handleSendRequest [{ id := "1", role := ChatRole.user, text := "hello",
                          sources := none }] "next question").history <:+
      (List.map toChatMessage [{ id := "1", role := ChatRole.user, text := "hello",
                                 sources := none }]) ∧
    ∀ c ∈ (handleSendRequest [{ id := "1", role := ChatRole.user, text := "hello",
                                sources := none }] "next question").history,
      c.text ≠ "next question" :=
  handleSend_history_bounded _ _ (by decide)

/-- C6: the observability panel shows Low Confidence exactly when the
evaluator flag list is non empty and Grounded exactly when it is empty, and
the answer is appended to the transcript whatever the flags are. -/
theorem integrityBadge_flags (metadata : MetadataResponse) :
    (integrityBadge metadata = "Low Confidence" ↔ metadata.evaluator_flags ≠ []) ∧
    (integrityBadge metadata = "Grounded" ↔ metadata.evaluator_flags = []) ∧
    ∀ (messages : List Message) (botId : String) (response : QueryResponse),
      response.answer ∈ (appendBotAnswer messages botId response).map Message.text := by
  have hne : ("Low Confidence" : String) ≠ "Grounded" := by decide
  constructor
  · cases h : metadata.evaluator_flags with
    | nil => simp [integrityBadge, h, hne]
    | cons a t => simp [integrityBadge, h]
  · constructor
    · cases h : metadata.evaluator_flags with
      | nil => simp [integrityBadge, h]
      | cons a t => simp [integrityBadge, h, hne]
    · intro messages botId response
      simp [appendBotAnswer]

/-- C7: askApi fails exactly when the HTTP response is not ok, the error
message names the status, a successful call returns the parsed body, and
every request ends either with the answer delivered or with the explicit
failure message as the final transcript entry. -/
theorem askApi_outcome (messages : List Message) (userText userId botId : String)
    (response : HttpResponse) :
    ((askApi response).isOk = response.ok) ∧
    (askApi response = Except.error ("API error: " ++ toString response.status) ∨
      askApi response = Except.ok response.body) ∧
    ∃ m, (handleSendOutcome messages userText userId botId response).getLast? = some m ∧
      ((response.ok = true ∧ m.text = response.body.answer) ∨
       (response.ok = false ∧ m.text = fetchFailureText)) := by
  cases hok : response.ok with
  | false =>
      refine ⟨by simp [askApi, hok, Except.isOk, Except.toBool], Or.inl ?_, ?_⟩
      · simp [askApi, hok]
      · refine ⟨{ id := botId, role := ChatRole.bot, text := fetchFailureText,
                  sources := none }, ?_, Or.inr ⟨rfl, rfl⟩⟩
        simp only [handleSendOutcome, askApi, hok]
        simp [List.append_assoc]
  | true =>
      refine ⟨by simp [askApi, hok, Except.isOk, Except.toBool], Or.inr ?_, ?_⟩
      · simp [askApi, hok]
      · refine ⟨{ id := botId, role := ChatRole.bot, text := response.body.answer,
                  sources := some response.body.sources }, ?_, Or.inl ⟨rfl, rfl⟩⟩
        simp only [handleSendOutcome, askApi, hok]
        simp [List.append_assoc]

/-! ## Citation rendering (Chat component) -/

/-- Value of a non empty digit sequence, most significant digit first. -/
def digitsVal (ds : List Char) : Nat :=
  ds.foldl (fun n c => 10 * n + (c.toNat - Char.toNat '0')) 0

/-- The leading digit run of a character list, as a number, when non empty. -/
def leadingNat (l : List Char) : Option Nat :=
  let ds := l.takeWhile Char.isDigit
  if ds = [] then none else some (digitsVal ds)

/-- JavaScript parseInt with radix ten on the character list of a string:
leading whitespace is skipped, an optional sign is read, then the leading
digit run is parsed; the result is NaN (here none) when no digit follows. -/
def parseIntChars (l : List Char) : Option Int :=
  match l.dropWhile (fun c => c = ' ') with
  | '-' :: rest => (leadingNat rest).map (fun n => -(n : Int))
  | '+' :: rest => (leadingNat rest).map (fun n => (n : Int))
  | rest => (leadingNat rest).map (fun n => (n : Int))

/-- JavaScript parseInt as used by the Citation component on its index
prop. -/
def parseIntJS (s : String) : Option Int :=
  parseIntChars s.data

/-- The two render shapes of the Citation component: the literal bracketed
index, or the interactive span for a resolved source. -/
inductive CitationRender where
  | literal : String → CitationRender
  | cited : SourceResponse → CitationRender
deriving DecidableEq

/-- Embeds the source lookup of the Citation component: sources is indexed
at idx - 1 only when the list is present; an index of NaN, zero, negative,
or past the end yields undefined, exactly as the JavaScript subscript
does. -/
def citationSource (index : String) (sources : Option (List SourceResponse)) :
    Option SourceResponse :=
  match sources with
  | none => none
  | some srcs =>
      match parseIntJS index with
      | none => none
      | some i =>
          if h : 0 < i ∧ i.toNat - 1 < srcs.length then
            some (srcs.get ⟨i.toNat - 1, h.2⟩)
          else
            none

/-- Embeds the render decision of the Citation component: when the looked
up source is undefined the literal bracketed index is returned, otherwise
the span for that source. -/
def renderCitation (index : String) (sources : Option (List SourceResponse)) :
    CitationRender :=
  match citationSource index sources with
  | none => CitationRender.literal ("[" ++ index ++ "]")
  | some s => CitationRender.cited s

/-- C9: the Citation component is total and dereferences the sources list
only behind an existence check: every render is either the literal
bracketed index (whenever the lookup fails, in particular for a non numeric
index, an out of range index, or an absent list) or the span for the
element genuinely at position idx - 1. -/
theorem renderCitation_safe (index : String) (sources : Option (List SourceResponse)) :
    (citationSource index sources = none ∧
      renderCitation index sources = CitationRender.literal ("[" ++ index ++ "]")) ∨
    (∃ srcs i, sources = some srcs ∧ parseIntJS index = some i ∧ 0 < i ∧
      ∃ h : i.toNat - 1 < srcs.length,
        citationSource index sources = some (srcs.get ⟨i.toNat - 1, h⟩) ∧
        renderCitation index sources = CitationRender.cited (srcs.get ⟨i.toNat - 1, h⟩)) := by
  cases hs : sources with
  | none =>
      left
      constructor
      · simp [citationSource]
      · simp [renderCitation, citationSource]
  | some srcs =>
      cases hp : parseIntJS index with
      | none =>
          left
          constructor
          · simp [citationSource, hp]
          · simp [renderCitation, citationSource, hp]
      | some i =>
          by_cases hr : 0 < i ∧ i.toNat - 1 < srcs.length
          · right
            refine ⟨srcs, i, rfl, rfl, hr.1, hr.2, ?_, ?_⟩
            · simp [citationSource, hp, hr]
            · simp [renderCitation, citationSource, hp, hr]
          · left
            constructor
            · simp [citationSource, hp, hr]
            · simp [renderCitation, citationSource, hp, hr]

/-! ## formatCitations (Chat component)

The source replaces every occurrence of the regular expression bracket,
one or more digits, bracket by an html cite element around the digits,
globally and left to right.  Since the digit quantifier is greedy and any
backtracked shorter run is still followed by a digit rather than a closing
bracket, the regex matches at a position exactly when the character is an
opening bracket and the maximal digit run after it is non empty and
immediately followed by a closing bracket. -/

/-- The match test of the citation regex just after an opening bracket. -/
def matchesAt (rest : List Char) : Prop :=
  rest.takeWhile Char.isDigit ≠ [] ∧
    (rest.drop (rest.takeWhile Char.isDigit).length).head? = some ']'

instance (rest : List Char) : Decidable (matchesAt rest) := by
  unfold matchesAt; infer_instance

/-- Characters of the opening replacement tag. -/
def citeOpen : List Char := ['<', 'c', 'i', 't', 'e', '>']

/-- Characters of the closing replacement tag. -/
def citeClose : List Char := ['<', '/', 'c', 'i', 't', 'e', '>']

/-- Embeds the global regex replacement of formatCitations on character
lists: each citation pattern is rewritten to the cite element and scanning
resumes after the consumed match, as the JavaScript global replace does. -/
def formatCiteChars : List Char → List Char
  | [] => []
  | c :: rest =>
      if c = '[' ∧ matchesAt rest then
        citeOpen ++ rest.takeWhile Char.isDigit ++ citeClose ++
          formatCiteChars (rest.drop ((rest.takeWhile Char.isDigit).length + 1))
      else
        c :: formatCiteChars rest
termination_by l => l.length
decreasing_by
  · simp only [List.length_cons]
    have := List.length_drop ((rest.takeWhile Char.isDigit).length + 1) rest
    omega
  · simp only [List.length_cons]
    omega

/-- Scanner for a remaining occurrence of the citation pattern anywhere in
a character list. -/
def hasCiteChars : List Char → Bool
  | [] => false
  | c :: rest => decide (c = '[' ∧ matchesAt rest) || hasCiteChars rest

/-- Embeds formatCitations of the Chat component, on strings. -/
def formatCitations (s : String) : String :=
  String.mk (formatCiteChars s.data)

/-- Whether a string still contains a substring of the citation shape. -/
def hasCitePattern (s : String) : Bool :=
  hasCiteChars s.data

/-- A scan over a block free of opening brackets finds a pattern exactly
when the remainder contains one. -/
theorem hasCiteChars_append (a b : List Char) (ha : ∀ c ∈ a, c ≠ '[') :
    hasCiteChars (a ++ b) = hasCiteChars b := by
  induction a with
  | nil => rfl
  | cons c t ih =>
      have hc : c ≠ '[' := ha c (List.mem_cons_self c t)
      have ht : ∀ x ∈ t, x ≠ '[' := fun x hx => ha x (List.mem_cons_of_mem c hx)
      have hdec : decide (c = '[' ∧ matchesAt (t ++ b)) = false := by
        simp [hc]
      simp only [List.cons_append, hasCiteChars, List.append_eq, ih ht, hdec, Bool.false_or]

/-- The output of the formatter starts either with the first input
character or with the opening angle of a replacement tag. -/
theorem formatCiteChars_head (c : Char) (rest : List Char) :
    (formatCiteChars (c :: rest)).head? = some '<' ∨
    (formatCiteChars (c :: rest)).head? = some c := by
  by_cases h : c = '[' ∧ matchesAt rest
  · left
    simp [formatCiteChars, if_pos h, citeOpen]
  · right
    simp [formatCiteChars, if_neg h]

/-- Digits pass through the formatter unchanged. -/
theorem formatCiteChars_digits (ds rest : List Char)
    (hds : ∀ c ∈ ds, Char.isDigit c = true) :
    formatCiteChars (ds ++ rest) = ds ++ formatCiteChars rest := by
  induction ds with
  | nil => rfl
  | cons d t ih =>
      have hd : Char.isDigit d = true := hds d (List.mem_cons_self d t)
      have hdne : ¬(d = '[' ∧ matchesAt (t ++ rest)) := by
        rintro ⟨rfl, -⟩
        simp at hd
      have ht : ∀ c ∈ t, Char.isDigit c = true := fun c hc => hds c (List.mem_cons_of_mem d hc)
      simp only [List.cons_append, formatCiteChars, if_neg hdne, ih ht]

/-- Dropping the length of the maximal satisfying run is dropping while. -/
theorem drop_takeWhile_length (p : Char → Bool) (l : List Char) :
    l.drop (l.takeWhile p).length = l.dropWhile p := by
  induction l with
  | nil => rfl
  | cons c t ih =>
      by_cases h : p c
      · simp [List.takeWhile_cons, List.dropWhile_cons, h, ih]
      · simp [List.takeWhile_cons, List.dropWhile_cons, h]

/-- The maximal run of a list whose head fails the test is empty. -/
theorem takeWhile_eq_nil_of_head (p : Char → Bool) (l : List Char)
    (h : ∀ c, l.head? = some c → p c = false) :
    l.takeWhile p = [] := by
  cases l with
  | nil => rfl
  | cons c t =>
      have := h c rfl
      simp [List.takeWhile_cons, this]

/-- The maximal digit run of a list with all digit members. -/
theorem takeWhile_append_digits (ds l : List Char)
    (hds : ∀ c ∈ ds, Char.isDigit c = true) :
    (ds ++ l).takeWhile Char.isDigit = ds ++ l.takeWhile Char.isDigit := by
  induction ds with
  | nil => rfl
  | cons d t ih =>
      have hd := hds d (List.mem_cons_self d t)
      have ht : ∀ c ∈ t, Char.isDigit c = true := fun c hc => hds c (List.mem_cons_of_mem d hc)
      simp [List.takeWhile_cons, hd, ih ht]

/-- A position that the regex does not match is still unmatched after the
formatter has processed the remainder of the string. -/
theorem not_matchesAt_format (rest : List Char) (h : ¬ matchesAt rest) :
    ¬ matchesAt (formatCiteChars rest) := by
  by_cases hds : rest.takeWhile Char.isDigit = []
  · -- the digit run is already empty: the head of the output is not a digit
    have hhead : ∀ c, (formatCiteChars rest).head? = some c → Char.isDigit c = false := by
      intro c hc
      cases rest with
      | nil => simp [formatCiteChars] at hc
      | cons a t =>
          have hnd : Char.isDigit a = false := by
            by_contra hcon
            simp only [Bool.not_eq_false] at hcon
            simp [List.takeWhile_cons, hcon] at hds
          rcases formatCiteChars_head a t with hh | hh
          · rw [hc] at hh
            cases hh
            decide
          · rw [hc] at hh
            cases hh
            exact hnd
    intro hm
    exact hm.1 (takeWhile_eq_nil_of_head _ _ hhead)
  · -- non empty digit run: the failure is the missing closing bracket
    set ds := rest.takeWhile Char.isDigit with hdsdef
    have hmem : ∀ c ∈ ds, Char.isDigit c = true := fun c hc => List.mem_takeWhile_imp hc
    have hsplit : ds ++ rest.dropWhile Char.isDigit = rest :=
      List.takeWhile_append_dropWhile Char.isDigit rest
    have hrest2 : rest.drop ds.length = rest.dropWhile Char.isDigit := by
      rw [hdsdef]
      exact drop_takeWhile_length Char.isDigit rest
    have hnotclose : (rest.dropWhile Char.isDigit).head? ≠ some ']' := by
      intro hcon
      exact h ⟨hds, by rw [← hdsdef, hrest2]; exact hcon⟩
    have hheadnd : ∀ c, (rest.dropWhile Char.isDigit).head? = some c → Char.isDigit c = false := by
      intro c hc
      have := List.head?_dropWhile_not Char.isDigit rest
      rw [hc] at this
      exact this
    -- rewrite the formatter output over the decomposition of rest
    have hout : formatCiteChars rest = ds ++ formatCiteChars (rest.dropWhile Char.isDigit) := by
      conv_lhs => rw [← hsplit]
      exact formatCiteChars_digits _ _ hmem
    -- the output digit run is exactly ds
    have houthead : ∀ c, (formatCiteChars (rest.dropWhile Char.isDigit)).head? = some c →
        Char.isDigit c = false ∧ c ≠ ']' := by
      intro c hc
      cases hrem : rest.dropWhile Char.isDigit with
      | nil => rw [hrem] at hc; simp [formatCiteChars] at hc
      | cons e t =>
          have he : Char.isDigit e = false := by
            apply hheadnd
            rw [hrem]
            rfl
          have hene : e ≠ ']' := by
            intro hcon
            apply hnotclose
            rw [hrem, hcon]
            rfl
          rw [hrem] at hc
          rcases formatCiteChars_head e t with hh | hh
          · rw [hc] at hh
            cases hh
            exact ⟨by decide, by decide⟩
          · rw [hc] at hh
            cases hh
            exact ⟨he, hene⟩
    have htw : (formatCiteChars (rest.dropWhile Char.isDigit)).takeWhile Char.isDigit = [] :=
      takeWhile_eq_nil_of_head _ _ (fun c hc => (houthead c hc).1)
    intro hm
    -- compute the run and the following character of the formatted output
    rw [hout] at hm
    obtain ⟨-, hcl⟩ := hm
    rw [takeWhile_append_digits ds _ hmem, htw, List.append_nil] at hcl
    rw [List.drop_left] at hcl
    cases hrem : (formatCiteChars (rest.dropWhile Char.isDigit)).head? with
    | none => rw [hrem] at hcl; cases hcl
    | some c =>
        rw [hrem] at hcl
        cases hcl
        exact (houthead _ hrem).2 rfl

/-- The formatted output contains no remaining citation pattern. -/
theorem hasCiteChars_formatCiteChars (l : List Char) :
    hasCiteChars (formatCiteChars l) = false := by
  induction l using formatCiteChars.induct with
  | case1 => simp [formatCiteChars, hasCiteChars]
  | case2 c rest h ih =>
      rw [formatCiteChars, if_pos h]
      rw [show citeOpen ++ rest.takeWhile Char.isDigit ++ citeClose ++
            formatCiteChars (rest.drop ((rest.takeWhile Char.isDigit).length + 1)) =
          (citeOpen ++ rest.takeWhile Char.isDigit ++ citeClose) ++
            formatCiteChars (rest.drop ((rest.takeWhile Char.isDigit).length + 1)) by
        simp [List.append_assoc]]
      rw [hasCiteChars_append _ _ ?_]
      · exact ih
      · intro c hc
        simp only [List.mem_append, citeOpen, citeClose] at hc
        rcases hc with (hc | hc) | hc
        · fin_cases hc <;> decide
        · have := List.mem_takeWhile_imp hc
          intro hcon
          rw [hcon] at this
          simp at this
        · fin_cases hc <;> decide
  | case3 c rest h ih =>
      rw [formatCiteChars, if_neg h]
      simp only [hasCiteChars, ih, Bool.or_eq_false_iff, decide_eq_false_iff_not]
      refine ⟨?_, trivial⟩
      rintro ⟨rfl, hm⟩
      by_cases hmr : matchesAt rest
      · exact h ⟨rfl, hmr⟩
      · exact not_matchesAt_format rest hmr hm

/-- A string without the citation pattern is a fixed point of the
formatter. -/
theorem formatCiteChars_of_no_pattern (l : List Char) (h : hasCiteChars l = false) :
    formatCiteChars l = l := by
  induction l with
  | nil => simp [formatCiteChars]
  | cons c rest ih =>
      simp only [hasCiteChars, Bool.or_eq_false_iff, decide_eq_false_iff_not] at h
      rw [formatCiteChars, if_neg h.1, ih h.2]

/-- C10: formatCitations is idempotent, because its output never contains a
remaining bracketed digit substring. -/
theorem formatCitations_idempotent (s : String) :
    formatCitations (formatCitations s) = formatCitations s ∧
    hasCitePattern (formatCitations s) = false := by
  constructor
  · have hfix : formatCiteChars (formatCiteChars s.data) = formatCiteChars s.data :=
      formatCiteChars_of_no_pattern _ (hasCiteChars_formatCiteChars s.data)
    show String.mk (formatCiteChars (formatCiteChars s.data)) = String.mk (formatCiteChars s.data)
    rw [hfix]
  · exact hasCiteChars_formatCiteChars s.data

/-! ## Reciprocal rank fusion

Modelled from the spec: the backend retriever combines the dense and the
lexical ranked candidate lists by reciprocal rank fusion.  A ranked list is
the ordered sequence of chunk identifiers a search returns. -/

/-- Modelled from the spec: the one indexed rank of a candidate in a ranked
list, when present.  The missing code is the rank lookup of the fusion step
of rag/retriever.py. -/
def rankIn (l : List String) (c : String) : Option Nat :=
  (l.findIdx? (fun x => x == c)).map (fun i => i + 1)

/-- Modelled from the spec: the contribution of one ranked list, one over
rank constant plus rank for a present candidate and zero for an absent
one.  The missing code is the per list term of the fusion step of
rag/retriever.py. -/
def rrfTerm (k : ℚ) (l : List String) (c : String) : ℚ :=
  match rankIn l c with
  | none => 0
  | some r => 1 / (k + r)

/-- Modelled from the spec: the fused score is the sum of the reciprocal
rank terms over the two input lists.  The missing code is the score
accumulation of the fusion step of rag/retriever.py. -/
def rrfScore (k : ℚ) (dense lexical : List String) (c : String) : ℚ :=
  rrfTerm k dense c + rrfTerm k lexical c

/-- Modelled from the spec: the fused output ranges over the candidates of
the two lists, each with its fused score.  The missing code is the fused
candidate map of rag/retriever.py. -/
def rrfFuse (k : ℚ) (dense lexical : List String) : List (String × ℚ) :=
  ((dense ++ lexical).dedup).map (fun c => (c, rrfScore k dense lexical c))

/-- A candidate is absent from a list exactly when its rank lookup fails. -/
theorem rankIn_eq_none (l : List String) (c : String) :
    rankIn l c = none ↔ c ∉ l := by
  have hmap : rankIn l c = none ↔ l.findIdx? (fun x => x == c) = none := by
    unfold rankIn
    cases l.findIdx? (fun x => x == c) <;> simp
  rw [hmap, List.findIdx?_eq_none_iff]
  constructor
  · intro h hc
    have := h c hc
    simp at this
  · intro h x hx
    simp only [beq_eq_false_iff_ne, ne_eq]
    intro hxc
    exact h (hxc ▸ hx)

/-- C1: the fused score of a candidate is the sum of one over rank constant
plus rank over every list in which it appears: with both ranks present it
is exactly the two term sum, with a single rank only that term, and a
candidate absent from both lists never appears in the fused output. -/
theorem rrf_fusion_spec :
    (∀ (k : ℚ) (dense lexical : List String) (c : String) (r1 r2 : Nat),
      rankIn dense c = some r1 → rankIn lexical c = some r2 →
        rrfScore k dense lexical c = 1 / (k + r1) + 1 / (k + r2)) ∧
    (∀ (k : ℚ) (dense lexical : List String) (c : String) (r1 : Nat),
      rankIn dense c = some r1 → c ∉ lexical →
        rrfScore k dense lexical c = 1 / (k + r1)) ∧
    (∀ (k : ℚ) (dense lexical : List String) (c : String) (r2 : Nat),
      c ∉ dense → rankIn lexical c = some r2 →
        rrfScore k dense lexical c = 1 / (k + r2)) ∧
    (∀ (k : ℚ) (dense lexical : List String) (c : String),
      c ∉ dense → c ∉ lexical →
        ∀ p ∈ rrfFuse k dense lexical, p.1 ≠ c) := by
  refine ⟨?_, ?_, ?_, ?_⟩
  · intro k dense lexical c r1 r2 h1 h2
    simp [rrfScore, rrfTerm, h1, h2]
  · intro k dense lexical c r1 h1 h2
    have h2n : rankIn lexical c = none := (rankIn_eq_none lexical c).mpr h2
    simp [rrfScore, rrfTerm, h1, h2n]
  · intro k dense lexical c r2 h1 h2
    have h1n : rankIn dense c = none := (rankIn_eq_none dense c).mpr h1
    simp [rrfScore, rrfTerm, h1n, h2]
  · intro k dense lexical c h1 h2 p hp
    simp only [rrfFuse, List.mem_map] at hp
    obtain ⟨x, hx, hxp⟩ := hp
    rw [List.mem_dedup, List.mem_append] at hx
    intro hpc
    have hxc : x = c := by rw [← hxp] at hpc; exact hpc
    rcases hx with hx | hx
    · exact h1 (hxc ▸ hx)
    · exact h2 (hxc ▸ hx)

/-- Witness for C1 at concrete ranked lists: the shared candidate is first
in the dense list and second in the lexical list with rank constant sixty,
and a candidate in neither list is missing from the fused output. -/
theorem rrf_fusion_spec_witness :
    rrfScore 60 ["a", "b"] ["b", "a"] "a" = 1 / (60 + 1) + 1 / (60 + 2) ∧
    ∀ p ∈ rrfFuse 60 ["a", "b"] ["b", "a"], p.1 ≠ "zzz" :=
  ⟨rrf_fusion_spec.1 60 ["a", "b"] ["b", "a"] "a" 1 2 (by rfl) (by rfl),
   rrf_fusion_spec.2.2.2 60 ["a", "b"] ["b", "a"] "zzz" (by decide) (by decide)⟩

/-! ## Dynamic thresholding

Modelled from the spec: the backend drops a reranked candidate whose score
falls below the larger of mean minus standard deviation and a fixed floor
constant, stated in the repository audit notes as fifteen hundredths. -/

/-- Modelled from the spec: arithmetic mean of the rerank scores.  The
missing code is the mean of the thresholding step of rag/retriever.py. -/
def meanScore (scores : List ℚ) : ℚ :=
  scores.sum / scores.length

/-- Modelled from the spec: population variance of the rerank scores, the
square of the standard deviation the threshold subtracts.  The missing
code is the standard deviation of the thresholding step of
rag/retriever.py. -/
def scoreVariance (scores : List ℚ) : ℚ :=
  ((scores.map (fun s => (s - meanScore scores) ^ 2)).sum) / scores.length

/-- The fixed minimum of the dynamic threshold, fifteen hundredths per the
repository audit notes. -/
def floorConstant : ℚ := 3 / 20

/-- Modelled from the spec: a score survives when it is at least the larger
of mean minus standard deviation and the floor constant.  The standard
deviation is an irrational square root in general, so the comparison with
mean minus the root is rendered exactly over the rationals: the score is at
least that difference precisely when it reaches the mean or its squared
distance to the mean is at most the variance (proved equivalent to the real
number formula in the C2 theorem below). -/
def survivesThreshold (scores : List ℚ) (s : ℚ) : Bool :=
  decide (floorConstant ≤ s) &&
    (decide (meanScore scores ≤ s) ||
      decide ((meanScore scores - s) ^ 2 ≤ scoreVariance scores))

/-- Modelled from the spec: the thresholding stage keeps exactly the
surviving scores.  The missing code is the filter of the thresholding step
of rag/retriever.py. -/
def applyThreshold (scores : List ℚ) : List ℚ :=
  scores.filter (fun s => survivesThreshold scores s)

/-- The variance of any score list is non negative. -/
theorem scoreVariance_nonneg (scores : List ℚ) : 0 ≤ scoreVariance scores := by
  unfold scoreVariance
  apply div_nonneg
  · apply List.sum_nonneg
    intro x hx
    simp only [List.mem_map] at hx
    obtain ⟨a, -, rfl⟩ := hx
    positivity
  · positivity

/-- C2 (amended): a score survives the dynamic threshold exactly when it is
at least the real number max of mean minus standard deviation and the floor
constant; on the rerank scores of the spec example the threshold drops the
lowest score, so three of the four candidates survive, not all four. -/
theorem survivesThreshold_spec :
    (∀ (scores : List ℚ) (s : ℚ),
      survivesThreshold scores s = true ↔
        max ((meanScore scores : ℝ) - Real.sqrt (scoreVariance scores))
          (floorConstant : ℝ) ≤ (s : ℝ)) ∧
    applyThreshold [9 / 10, 17 / 20, 1 / 5, 1 / 10] = [9 / 10, 17 / 20, 1 / 5] := by
  constructor
  · intro scores s
    have hv : (0 : ℝ) ≤ (scoreVariance scores : ℝ) := by
      exact_mod_cast scoreVariance_nonneg scores
    simp only [survivesThreshold, Bool.and_eq_true, Bool.or_eq_true, decide_eq_true_eq]
    rw [max_le_iff]
    constructor
    · rintro ⟨hflr, hside⟩
      constructor
      · rcases hside with hm | hsq
        · have hmr : (meanScore scores : ℝ) ≤ (s : ℝ) := by exact_mod_cast hm
          have := Real.sqrt_nonneg (scoreVariance scores : ℝ)
          linarith
        · by_cases hm : (meanScore scores : ℝ) ≤ (s : ℝ)
          · have := Real.sqrt_nonneg (scoreVariance scores : ℝ)
            linarith
          · push_neg at hm
            have hpos : (0 : ℝ) ≤ (meanScore scores : ℝ) - (s : ℝ) := by linarith
            have hsqr : ((meanScore scores : ℝ) - (s : ℝ)) ^ 2 ≤ (scoreVariance scores : ℝ) := by
              exact_mod_cast hsq
            have := (Real.le_sqrt hpos hv).mpr hsqr
            linarith
      · exact_mod_cast hflr
    · rintro ⟨hthr, hflr⟩
      refine ⟨by exact_mod_cast hflr, ?_⟩
      by_cases hm : meanScore scores ≤ s
      · exact Or.inl hm
      · refine Or.inr ?_
        push_neg at hm
        have hmR : (s : ℝ) < (meanScore scores : ℝ) := by exact_mod_cast hm
        have hpos : (0 : ℝ) ≤ (meanScore scores : ℝ) - (s : ℝ) := by linarith
        have hle : (meanScore scores : ℝ) - (s : ℝ) ≤ Real.sqrt (scoreVariance scores : ℝ) := by
          linarith
        have hsq := (Real.le_sqrt hpos hv).mp hle
        exact_mod_cast hsq
  · have hmean : meanScore [9 / 10, 17 / 20, 1 / 5, 1 / 10] = 41 / 80 := by
      norm_num [meanScore]
    have hvar : scoreVariance [9 / 10, 17 / 20, 1 / 5, 1 / 10] = 851 / 6400 := by
      norm_num [scoreVariance, meanScore]
    have h1 : survivesThreshold [9 / 10, 17 / 20, 1 / 5, 1 / 10] (9 / 10) = true := by
      simp only [survivesThreshold, hmean, floorConstant]
      norm_num
    have h2 : survivesThreshold [9 / 10, 17 / 20, 1 / 5, 1 / 10] (17 / 20) = true := by
      simp only [survivesThreshold, hmean, floorConstant]
      norm_num
    have h3 : survivesThreshold [9 / 10, 17 / 20, 1 / 5, 1 / 10] (1 / 5) = true := by
      simp only [survivesThreshold, hmean, hvar, floorConstant]
      norm_num
    have h4 : survivesThreshold [9 / 10, 17 / 20, 1 / 5, 1 / 10] (1 / 10) = false := by
      simp only [survivesThreshold, floorConstant]
      norm_num
    unfold applyThreshold
    simp only [List.filter_cons, List.filter_nil, h1, h2, h3, h4]
    simp

/-- Counterexample to C2 as stated: on the rerank scores of the example the
candidate scoring one tenth falls below the dynamic threshold and is
dropped, so not all four candidates survive. -/
theorem survivesThreshold_counterexample :
    survivesThreshold [9 / 10, 17 / 20, 1 / 5, 1 / 10] (1 / 10) = false ∧
    (1 / 10 : ℚ) ∉ applyThreshold [9 / 10, 17 / 20, 1 / 5, 1 / 10] := by
  have h4 : survivesThreshold [9 / 10, 17 / 20, 1 / 5, 1 / 10] (1 / 10) = false := by
    simp only [survivesThreshold, floorConstant]
    norm_num
  refine ⟨h4, ?_⟩
  intro hmem
  unfold applyThreshold at hmem
  rw [List.mem_filter] at hmem
  rw [h4] at hmem
  exact absurd hmem.2 (by simp)

/-! ## Query router

Modelled from the spec: the backend router is a pure additive point scorer
over the normalized (case folded) query text: fixed points for word count
beyond a threshold, for presence of a high intent keyword, and for presence
of a reasoning marker phrase, with the deep tier selected at or above a
cutoff of two points. -/

/-- Space separated words of a character list, empty runs skipped; the
accumulator carries the current word reversed. -/
def wordsAux : List Char → List Char → List (List Char)
  | [], acc => if acc = [] then [] else [acc.reverse]
  | c :: rest, acc =>
      if c = ' ' then
        if acc = [] then wordsAux rest [] else acc.reverse :: wordsAux rest []
      else
        wordsAux rest (c :: acc)

/-- Substring occurrence of a needle anywhere in a haystack. -/
def containsChars (needle : List Char) : List Char → Bool
  | [] => needle.isEmpty
  | c :: rest => needle.isPrefixOf (c :: rest) || containsChars needle rest

/-- Modelled from the spec: the fixed high intent vocabulary of the router,
from the examples of the written answers (integrate, troubleshoot, SLA).
The missing code is the keyword list of routing/model_router.py. -/
def intentKeywords : List String := ["integrate", "troubleshoot", "sla"]

/-- Modelled from the spec: the reasoning marker phrases of the router,
from the examples of the written answers.  The missing code is the marker
list of routing/model_router.py. -/
def reasoningMarkers : List String := ["difference between", "how do i"]

/-- Word count threshold of the length rule, twenty words. -/
def lengthThresholdWords : Nat := 20

/-- Points for a query longer than the word count threshold. -/
def lengthPoints : Nat := 2

/-- Points for presence of a high intent keyword, counted once. -/
def keywordPoints : Nat := 1

/-- Points for presence of a reasoning marker phrase, counted once. -/
def markerPoints : Nat := 1

/-- Total score at or above which the deep tier is selected. -/
def deepCutoff : Nat := 2

/-- Whether any phrase of the list occurs in the normalized text. -/
def containsAnyKeyword (t : List Char) (keys : List String) : Bool :=
  keys.any (fun k => containsChars k.data t)

/-- Modelled from the spec: the additive point score over normalized
text.  The missing code is the scoring function of
routing/model_router.py. -/
def routingScoreChars (t : List Char) : Nat :=
  (if lengthThresholdWords < (wordsAux t []).length then lengthPoints else 0) +
  (if containsAnyKeyword t intentKeywords then keywordPoints else 0) +
  (if containsAnyKeyword t reasoningMarkers then markerPoints else 0)

/-- The router normalization: case folding of the query text. -/
def normalizeQueryChars (q : String) : List Char :=
  q.data.map Char.toLower

/-- Modelled from the spec: the routing score of a raw query. -/
def routingScore (q : String) : Nat :=
  routingScoreChars (normalizeQueryChars q)

/-- The two generation tiers the router selects between. -/
inductive ModelTier where
  | fast : ModelTier
  | deep : ModelTier
deriving DecidableEq

/-- Modelled from the spec: tier selection by comparing the score against
the cutoff.  The missing code is the tier decision of
routing/model_router.py. -/
def routeTier (q : String) : ModelTier :=
  if deepCutoff ≤ routingScore q then ModelTier.deep else ModelTier.fast

/-- C4 (amended): the router is a pure function of the normalized text, so
two queries with equal normalization always receive the identical score and
tier; and a query whose word count exceeds the length threshold with zero
keyword matches and zero reasoning marker matches scores exactly the length
points. -/
theorem router_deterministic (q1 q2 : String)
    (hnorm : normalizeQueryChars q1 = normalizeQueryChars q2) :
    (routingScore q1 = routingScore q2 ∧ routeTier q1 = routeTier q2) ∧
    ∀ q : String,
      lengthThresholdWords < (wordsAux (normalizeQueryChars q) []).length →
      containsAnyKeyword (normalizeQueryChars q) intentKeywords = false →
      containsAnyKeyword (normalizeQueryChars q) reasoningMarkers = false →
      routingScore q = lengthPoints := by
  constructor
  · have hs : routingScore q1 = routingScore q2 := by
      unfold routingScore
      rw [hnorm]
    exact ⟨hs, by unfold routeTier; rw [hs]⟩
  · intro q hlen hkw hmk
    unfold routingScore routingScoreChars
    rw [if_pos hlen, hkw, hmk]
    simp

/-- Witness for C4 at concrete queries: two case variants of one greeting
route identically, and a twenty one word query free of keywords and markers
scores exactly the length points. -/
theorem router_deterministic_witness :
    routeTier "Hi" = routeTier "hI" ∧
    routingScore
      "the cat sat on the mat and the dog sat on the log while the bird sat on the wire today" =
      lengthPoints :=
  ⟨((router_deterministic "Hi" "hI" (by decide)).1).2,
   (router_deterministic "x" "x" rfl).2 _ (by decide) (by decide) (by decide)⟩

/-- Counterexample to C4 as stated: a query of twenty one words with zero
matches against the high intent vocabulary still scores three points, not
the two length points, because the phrase how do i adds the reasoning
marker points. -/
theorem router_counterexample :
    lengthThresholdWords <
      (wordsAux (normalizeQueryChars
        "How do I make my garden grow when the weather is very cold and the soil is quite dry today now") []).length ∧
    containsAnyKeyword (normalizeQueryChars
        "How do I make my garden grow when the weather is very cold and the soil is quite dry today now")
      intentKeywords = false ∧
    routingScore
        "How do I make my garden grow when the weather is very cold and the soil is quite dry today now" ≠
      lengthPoints := by
  refine ⟨by decide, by decide, ?_⟩
  intro hcon
  have hval : routingScore
      "How do I make my garden grow when the weather is very cold and the soil is quite dry today now" = 3 := by
    decide
  rw [hval] at hcon
  exact absurd hcon (by decide)

/-! ## Hybrid retrieval pipeline

Modelled from the spec: after fusion the retriever applies source
reliability tiering, deduplicates by chunk id keeping the highest scored
occurrence, reranks the top candidates by a pure cross encoder score
ordered descending, applies the dynamic threshold over the reranked set,
and caps the result at the final top k. -/

/-- The per query candidate record: chunk id and current stage score. -/
structure Candidate where
  chunk_id : String
  score : ℚ
deriving DecidableEq

/-- Modelled from the spec: tiering multiplies each fused score by the
boost factor of the source category of the chunk, abstracted here as a
function of the chunk id.  The missing code is the boost step of
rag/retriever.py. -/
def tierBoost (boost : String → ℚ) (l : List Candidate) : List Candidate :=
  l.map (fun c => { chunk_id := c.chunk_id, score := c.score * boost c.chunk_id })

/-- The highest scored occurrence of a chunk id in a candidate list. -/
def bestFor (l : List Candidate) (id : String) : Candidate :=
  match l.filter (fun c => c.chunk_id == id) with
  | [] => { chunk_id := id, score := 0 }
  | x :: xs => xs.foldl (fun b c => if b.score < c.score then c else b) x

/-- Modelled from the spec: deduplication by chunk id, keeping for every
id its highest scored occurrence, in first occurrence order.  The missing
code is the dedup step of rag/retriever.py. -/
def dedupByChunk (l : List Candidate) : List Candidate :=
  ((l.map Candidate.chunk_id).dedup).map (bestFor l)

/-- Insertion into a score descending list. -/
def insertDesc (c : Candidate) : List Candidate → List Candidate
  | [] => [c]
  | x :: xs => if x.score ≤ c.score then c :: x :: xs else x :: insertDesc c xs

/-- Insertion sort by score, descending. -/
def sortByScoreDesc (l : List Candidate) : List Candidate :=
  l.foldr insertDesc []

/-- The score descending order relation on candidates. -/
def scoreGE (a b : Candidate) : Prop := b.score ≤ a.score

/-- Modelled from the spec: reranking takes the top m tiered candidates,
rescoring each by the pure reranker applied to the query chunk pair
(abstracted as a function of the chunk id), ordered by rerank score
descending.  The missing code is the cross encoder step of
rag/retriever.py. -/
def rerankStage (rerank : String → ℚ) (m : Nat) (l : List Candidate) : List Candidate :=
  sortByScoreDesc
    ((l.take m).map (fun c => { chunk_id := c.chunk_id, score := rerank c.chunk_id }))

/-- Modelled from the spec: the dynamic threshold filter over the reranked
candidate set. -/
def thresholdStage (l : List Candidate) : List Candidate :=
  l.filter (fun c => survivesThreshold (l.map Candidate.score) c.score)

/-- Modelled from the spec: the full hybrid retrieval pipeline behind the
Retrieval Result: fusion, tiering, deduplication, reranking, dynamic
thresholding, and the final top k cap. -/
def hybridRetrieve (boost rerank : String → ℚ) (m topK : Nat) (kConst : ℚ)
    (dense lexical : List String) : List Candidate :=
  (thresholdStage (rerankStage rerank m (dedupByChunk (tierBoost boost
    ((rrfFuse kConst dense lexical).map
      (fun p => { chunk_id := p.1, score := p.2 })))))).take topK

/-- The maximum selection fold returns one of its candidates. -/
theorem foldl_pick_mem (x : Candidate) (xs : List Candidate) :
    xs.foldl (fun b c => if b.score < c.score then c else b) x ∈ x :: xs := by
  induction xs generalizing x with
  | nil => simp
  | cons y ys ih =>
      simp only [List.foldl_cons]
      by_cases h : x.score < y.score
      · rw [if_pos h]
        exact List.mem_cons_of_mem x (ih y)
      · rw [if_neg h]
        rcases List.mem_cons.mp (ih x) with h1 | h1
        · rw [h1]
          exact List.mem_cons_self x _
        · exact List.mem_cons_of_mem x (List.mem_cons_of_mem y h1)

/-- The best occurrence selected for an id carried by the list has that
id. -/
theorem bestFor_chunk_id (l : List Candidate) (id : String)
    (h : id ∈ l.map Candidate.chunk_id) :
    (bestFor l id).chunk_id = id := by
  unfold bestFor
  obtain ⟨c, hc, hcid⟩ := List.mem_map.mp h
  have hcf : c ∈ l.filter (fun c => c.chunk_id == id) := by
    rw [List.mem_filter]
    exact ⟨hc, by simp [hcid]⟩
  cases hf : l.filter (fun c => c.chunk_id == id) with
  | nil => rfl
  | cons x xs =>
      have hall : ∀ a ∈ x :: xs, a.chunk_id = id := by
        intro a ha
        rw [← hf] at ha
        have := (List.mem_filter.mp ha).2
        simpa using this
      exact hall _ (foldl_pick_mem x xs)

/-- Deduplication yields pairwise distinct chunk ids. -/
theorem nodup_dedupByChunk (l : List Candidate) :
    ((dedupByChunk l).map Candidate.chunk_id).Nodup := by
  unfold dedupByChunk
  rw [List.map_map]
  have hcongr : (l.map Candidate.chunk_id).dedup.map (Candidate.chunk_id ∘ bestFor l) =
      (l.map Candidate.chunk_id).dedup.map id := by
    apply List.map_congr_left
    intro a ha
    have ha2 : a ∈ l.map Candidate.chunk_id := List.mem_dedup.mp ha
    simpa using bestFor_chunk_id l a ha2
  rw [hcongr, List.map_id]
  exact List.nodup_dedup _

/-- Insertion produces a permutation of the pushed list. -/
theorem insertDesc_perm (c : Candidate) (l : List Candidate) :
    List.Perm (insertDesc c l) (c :: l) := by
  induction l with
  | nil => exact List.Perm.refl _
  | cons x xs ih =>
      by_cases h : x.score ≤ c.score
      · rw [insertDesc, if_pos h]
      · rw [insertDesc, if_neg h]
        exact List.Perm.trans (List.Perm.cons x ih) (List.Perm.swap c x xs)

/-- The insertion sort permutes its input. -/
theorem sortByScoreDesc_perm (l : List Candidate) :
    List.Perm (sortByScoreDesc l) l := by
  induction l with
  | nil => exact List.Perm.refl _
  | cons c cs ih =>
      have h1 : sortByScoreDesc (c :: cs) = insertDesc c (sortByScoreDesc cs) := rfl
      rw [h1]
      exact List.Perm.trans (insertDesc_perm c (sortByScoreDesc cs)) (List.Perm.cons c ih)

/-- Insertion preserves the descending order. -/
theorem insertDesc_sorted (c : Candidate) (l : List Candidate)
    (h : List.Sorted scoreGE l) : List.Sorted scoreGE (insertDesc c l) := by
  induction l with
  | nil =>
      rw [insertDesc]
      exact List.sorted_singleton c
  | cons x xs ih =>
      rw [List.sorted_cons] at h
      by_cases hx : x.score ≤ c.score
      · rw [insertDesc, if_pos hx, List.sorted_cons]
        refine ⟨?_, List.sorted_cons.mpr h⟩
        intro b hb
        rcases List.mem_cons.mp hb with hb | hb
        · rw [hb]
          exact hx
        · have := h.1 b hb
          unfold scoreGE at this ⊢
          linarith
      · rw [insertDesc, if_neg hx, List.sorted_cons]
        refine ⟨?_, ih h.2⟩
        intro b hb
        have hb2 : b ∈ c :: xs := (insertDesc_perm c xs).mem_iff.mp hb
        rcases List.mem_cons.mp hb2 with hb2 | hb2
        · rw [hb2]
          unfold scoreGE
          linarith [not_le.mp hx]
        · exact h.1 b hb2

/-- The insertion sort orders by score, descending. -/
theorem sortByScoreDesc_sorted (l : List Candidate) :
    List.Sorted scoreGE (sortByScoreDesc l) := by
  induction l with
  | nil => exact List.sorted_nil
  | cons c cs ih => exact insertDesc_sorted c (sortByScoreDesc cs) ih

/-- C3: the Retrieval Result of the hybrid retriever never carries two
entries with the same chunk id, is ordered descending by final score, and
has length at most the configured top k; this holds for every query, every
boost and reranker function, and every pair of input ranked lists. -/
theorem hybridRetrieve_invariants (boost rerank : String → ℚ) (m topK : Nat)
    (kConst : ℚ) (dense lexical : List String) :
    ((hybridRetrieve boost rerank m topK kConst dense lexical).map Candidate.chunk_id).Nodup ∧
    List.Sorted scoreGE (hybridRetrieve boost rerank m topK kConst dense lexical) ∧
    (hybridRetrieve boost rerank m topK kConst dense lexical).length ≤ topK := by
  unfold hybridRetrieve
  refine ⟨?_, ?_, ?_⟩
  · -- no duplicate chunk ids
    set L := dedupByChunk (tierBoost boost
      ((rrfFuse kConst dense lexical).map (fun p => { chunk_id := p.1, score := p.2 })))
      with hL
    have h1 : (L.map Candidate.chunk_id).Nodup := nodup_dedupByChunk _
    have h2 : ((L.take m).map Candidate.chunk_id).Nodup := by
      rw [List.map_take]
      exact List.Pairwise.take h1
    have h3 : (((L.take m).map
        (fun c => ({ chunk_id := c.chunk_id, score := rerank c.chunk_id } : Candidate))).map
          Candidate.chunk_id).Nodup := by
      rw [List.map_map]
      exact h2
    have h4 : ((rerankStage rerank m L).map Candidate.chunk_id).Nodup := by
      unfold rerankStage
      have hperm := (sortByScoreDesc_perm ((L.take m).map
        (fun c => ({ chunk_id := c.chunk_id, score := rerank c.chunk_id } : Candidate))))
      exact ((hperm.map Candidate.chunk_id).nodup_iff).mpr h3
    have h5 : ((thresholdStage (rerankStage rerank m L)).map Candidate.chunk_id).Nodup := by
      unfold thresholdStage
      exact List.Pairwise.sublist
        (List.Sublist.map Candidate.chunk_id (List.filter_sublist _)) h4
    exact List.Pairwise.sublist
      (List.Sublist.map Candidate.chunk_id (List.take_sublist _ _)) h5
  · -- descending order by final score
    apply List.Pairwise.take
    apply List.Sorted.filter
    exact sortByScoreDesc_sorted _
  · exact List.length_take_le _ _

/-! ## Streaming metadata envelope

Modelled from the spec: the streaming variant of the query endpoint yields
the answer token chunks first and then one final payload, the delimiter
followed by the metadata block; the frontend askStreamApi passes the
decoded chunks through unchanged, so a consumer separates answer text from
terminal metadata by scanning the concatenated stream for the delimiter. -/

/-- Modelled from the spec: the stream produced by the backend, the answer
token chunks followed by a single delimited metadata payload.  The missing
code is the streaming generator of the backend app. -/
def mkEnvelopeStream (delim : List Char) (tokens : List (List Char)) (meta : List Char) :
    List (List Char) :=
  tokens ++ [delim ++ meta]

/-- The consumer side split: scanning left to right, the text before the
first occurrence of the delimiter and the payload after it. -/
def splitEnvelope (delim : List Char) : List Char → List Char × List Char
  | [] => ([], [])
  | c :: cs =>
      if delim.isPrefixOf (c :: cs) then
        ([], (c :: cs).drop delim.length)
      else
        ((splitEnvelope delim cs).1.cons c, (splitEnvelope delim cs).2)

/-- A list is a prefix of itself followed by anything. -/
theorem isPrefixOf_append_self (l t : List Char) : l.isPrefixOf (l ++ t) = true := by
  induction l with
  | nil => simp [List.isPrefixOf]
  | cons c cs ih => simp [List.isPrefixOf, ih]

/-- Splitting an answer free of the leading delimiter character recovers
the answer and the metadata exactly. -/
theorem splitEnvelope_append (d : Char) (ds answer meta : List Char)
    (hfree : d ∉ answer) :
    splitEnvelope (d :: ds) (answer ++ ((d :: ds) ++ meta)) = (answer, meta) := by
  induction answer with
  | nil =>
      have hp : (d :: ds).isPrefixOf ((d :: ds) ++ meta) = true :=
        isPrefixOf_append_self (d :: ds) meta
      rw [List.nil_append, List.cons_append, splitEnvelope, ← List.cons_append,
        if_pos hp, List.drop_left]
  | cons a as ih =>
      have had : d ≠ a := by
        intro hcon
        apply hfree
        rw [hcon]
        exact List.mem_cons_self a as
      have hfree2 : d ∉ as := fun hc => hfree (List.mem_cons_of_mem a hc)
      rw [List.cons_append, splitEnvelope]
      have hpre : (d :: ds).isPrefixOf (a :: (as ++ ((d :: ds) ++ meta))) = false := by
        simp [List.isPrefixOf, had]
      rw [if_neg (by rw [hpre]; simp), ih hfree2]

/-- C8: the streaming variant emits the answer tokens first and the
metadata as one final delimited payload, so that a consumer who scans the
concatenated stream for the delimiter recovers exactly the answer text and
the metadata block, whenever the answer text does not contain the leading
delimiter character. -/
theorem envelopeStream_separates (d : Char) (ds meta : List Char)
    (tokens : List (List Char)) (hfree : d ∉ tokens.flatten) :
    splitEnvelope (d :: ds) (mkEnvelopeStream (d :: ds) tokens meta).flatten =
      (tokens.flatten, meta) := by
  unfold mkEnvelopeStream
  rw [List.flatten_append]
  have hsingle : ([(d :: ds) ++ meta] : List (List Char)).flatten = (d :: ds) ++ meta := by
    simp
  rw [hsingle]
  exact splitEnvelope_append d ds (tokens.flatten) meta hfree

/-- Witness for C8 at a concrete stream: two answer chunks, a hash
delimiter, and a short metadata payload. -/
theorem envelopeStream_separates_witness :
    splitEnvelope ['#'] (mkEnvelopeStream ['#'] [['h', 'i'], [' ', 'u']] ['m', 'd']).flatten =
      (['h', 'i', ' ', 'u'], ['m', 'd']) :=
  envelopeStream_separates '#' [] ['m', 'd'] [['h', 'i'], [' ', 'u']] (by decide)

end ClearPath
